import Mathlib

/-!
Verification of the core of `medulla_one_column` (`main.go`): the named
connectome data structure, its CSV-driven construction, wildcard name
matching, and the strength-ranked connection query.

Modelling conventions:
* A Go `map[string]V` is modelled as an association list `List (String × V)`
  with `mapLookup` / `mapInsert`; Go maps have unique keys, and every lemma
  below holds for arbitrary association lists, so no key-uniqueness
  invariant is needed.
* Go `int` is modelled as `Int` (the spec declares integer counts and no
  numeric-precision concerns in scope).
* Go runtime panics (negative string-slice index, index out of range) and
  `log.Fatal*` aborts are both modelled as non-success results (`none`,
  resp. `Except.error`), since each of them prevents a value from being
  returned.
* Strings are Lean `String`s (valid UTF-8, as Go string literals are); for
  such strings Go's byte-level prefix/suffix tests agree with the
  character-level ones used here.
-/

deriving instance DecidableEq for Except

namespace MedullaConn

/-- Lookup in an association list modelling a Go `map[string]V`
(first binding of the key wins). -/
def mapLookup {α : Type} : List (String × α) → String → Option α
  | [], _ => none
  | (k, v) :: rest, key => if k = key then some v else mapLookup rest key

/-- Update/insert in an association list modelling Go `m[key] = v`:
replace the first binding of the key, or append a new binding. -/
def mapInsert {α : Type} : List (String × α) → String → α → List (String × α)
  | [], key, v => [(key, v)]
  | (k, w) :: rest, key, v =>
    if k = key then (key, v) :: rest else (k, w) :: mapInsert rest key v

/-- `NamedConnectome` (main.go line 145): map from presynaptic cell name to a
map from postsynaptic cell name to connection strength. -/
def NamedConnectome : Type := List (String × List (String × Int))

instance : DecidableEq NamedConnectome := by
  unfold NamedConnectome
  infer_instance

/-- The presynaptic key set of a connectome (what Go's
`for name := range nc` iterates over). -/
def connectomeNames (nc : NamedConnectome) : List String :=
  nc.map Prod.fst

/-- The strength stored for a `(pre, post)` pair, if any: the double map
lookup `nc[pre][post]` with `none` for a missing entry. -/
def storedStrength (nc : NamedConnectome) (pre post : String) : Option Int :=
  match mapLookup nc pre with
  | none => none
  | some connections => mapLookup connections post

/-- `ConnectionStrength` (main.go lines 148-160): returns the stored
strength and a `found` flag; a stored strength of exactly 0 is reported as
not found (with strength 0 returned). -/
def ConnectionStrength (nc : NamedConnectome) (pre post : String) : Int × Bool :=
  match mapLookup nc pre with
  | none => (0, false)
  | some connections =>
    match mapLookup connections post with
    | none => (0, false)
    | some strength => if strength = 0 then (strength, false) else (strength, true)

/-- Reduction of an integer to Go's 64-bit two's-complement `int` range
`[-2^63, 2^63)`; `x += y` on Go `int` is `wrapInt64 (x + y)`. -/
def wrapInt64 (n : Int) : Int :=
  (n + 9223372036854775808) % 18446744073709551616 - 9223372036854775808

/-- `AddConnection` (main.go lines 164-180): add (not overwrite) a
`(pre, post)` connection of the given strength.  Strengths are Go `int`
(64-bit) values, so every stored value is reduced to the `int64` range:
the accumulating `+=` of line 172 wraps on overflow, and a fresh store of
an in-range argument is unchanged by the reduction.  (Go's lazy
`make(NamedConnectome)` for a nil map has no observable counterpart in the
value model.) -/
def AddConnection (nc : NamedConnectome) (pre post : String) (strength : Int) :
    NamedConnectome :=
  match mapLookup nc pre with
  | some connections =>
    match mapLookup connections post with
    | some old => mapInsert nc pre (mapInsert connections post (wrapInt64 (old + strength)))
    | none => mapInsert nc pre (mapInsert connections post (wrapInt64 strength))
  | none => mapInsert nc pre [(post, wrapInt64 strength)]

/-- Test whether the last character of a string is `c`: for a non-empty
pattern and the one-byte character `*` this is exactly Go's
`pattern[len(pattern)-1:] == "*"` (main.go line 187). -/
def lastCharIs (s : String) (c : Char) : Bool :=
  match s.data.getLast? with
  | some d => d = c
  | none => false

/-- The wildcard character of main.go line 187. -/
def starChar : Char := '*'

/-- Strip the last character: Go's `pattern[:len(pattern)-1]` (main.go line
189) for a pattern whose last byte is the one-byte character `*`. -/
def dropLastChar (s : String) : String :=
  String.mk s.data.dropLast

/-- `strings.HasPrefix name pattern` (main.go line 191): byte-level prefix
test, i.e. character-list prefix for valid UTF-8. -/
def hasPrefix (name pattern : String) : Bool :=
  pattern.data.isPrefixOf name.data

/-- `MatchingNames` (main.go lines 184-204).  For each pattern in order: a
pattern ending in `*` is stripped and prefix-matched against the key set;
otherwise the pattern itself is kept exactly when it is a key.  Go evaluates
`pattern[len(pattern)-1:]` on every pattern, which for the empty pattern is
the negative-index slice `pattern[-1:]` and panics; the panic is modelled
by `none`. -/
def MatchingNames (nc : NamedConnectome) : List String → Option (List String)
  | [] => some []
  | pattern :: rest =>
    if pattern = "" then
      none
    else
      let thisMatches :=
        if lastCharIs pattern starChar then
          (connectomeNames nc).filter (fun name => hasPrefix name (dropLastChar pattern))
        else if (mapLookup nc pattern).isSome then [pattern] else []
      (MatchingNames nc rest).map (fun ms => thisMatches ++ ms)

/-- `Connection` (main.go lines 126-130). -/
structure Connection where
  pre : String
  post : String
  strength : Int
deriving DecidableEq, Repr

/-- One step of insertion sort by descending strength. -/
def insertDesc (c : Connection) : List Connection → List Connection
  | [] => [c]
  | d :: ds => if d.strength ≤ c.strength then c :: d :: ds else d :: insertDesc c ds

/-- `SortByStrength` (main.go lines 136-140): `sort.Sort` under the comparator
`list[i].strength > list[j].strength`, i.e. a permutation ordered by
descending strength.  Go's sort algorithm is unspecified among equal
strengths; insertion sort realizes the same contract. -/
def sortByStrength (l : List Connection) : List Connection :=
  l.foldr insertDesc []

/-- Inner double loop of `getSearchHTML` (main.go lines 240-248): for each
matched presynaptic name, re-resolve the postsynaptic patterns (as Go does
in the inner `range` header) and keep the pairs whose lookup reports
`found`. -/
def queryLoop (nc : NamedConnectome) (post : List String) :
    List String → Option (List Connection)
  | [] => some []
  | preName :: rest =>
    match MatchingNames nc post with
    | none => none
    | some postMatches =>
      (queryLoop nc post rest).map (fun restConns =>
        (postMatches.filterMap (fun postName =>
          let r := ConnectionStrength nc preName postName
          if r.2 then some (Connection.mk preName postName r.1) else none)) ++ restConns)

/-- Helper for `splitComma`: accumulate the current item (reversed) while
scanning; each comma closes an item. -/
def splitCommaAux : List Char → List Char → List String
  | [], acc => [String.mk acc.reverse]
  | c :: cs, acc =>
    if c = ',' then String.mk acc.reverse :: splitCommaAux cs []
    else splitCommaAux cs (c :: acc)

/-- `strings.Split(s, ",")` (main.go lines 231-232): the pieces of `s`
around every comma; the empty string yields `[""]`, and `n` commas yield
`n + 1` items. -/
def splitComma (s : String) : List String :=
  splitCommaAux s.data []

/-- Go's `unicode.IsSpace`: the Unicode White_Space code points (listed by
numeric value). -/
def goIsSpace (c : Char) : Bool :=
  let n := c.toNat
  n = 9 || n = 10 || n = 11 || n = 12 || n = 13 || n = 32 || n = 133 || n = 160 ||
    n = 5760 || (8192 ≤ n && n ≤ 8202) || n = 8232 || n = 8233 || n = 8239 ||
    n = 8287 || n = 12288

/-- `strings.TrimSpace` (main.go lines 234, 237): remove leading and
trailing White_Space characters. -/
def trimSpace (s : String) : String :=
  String.mk (((s.data.dropWhile goIsSpace).reverse.dropWhile goIsSpace).reverse)

/-- The connection-list computation of `getSearchHTML` (main.go lines
230-250), i.e. the spec's `Query` operation stripped of HTML rendering:
split both raw strings on commas, trim each item, resolve both pattern
lists, cross-product the matches through `ConnectionStrength`, and sort by
descending strength.  (Go sorts only a non-empty list; sorting the empty
list is the identity, so the guard is dropped.) -/
def queryConnections (nc : NamedConnectome) (preNames postNames : String) :
    Option (List Connection) :=
  let pre := (splitComma preNames).map trimSpace
  let post := (splitComma postNames).map trimSpace
  match MatchingNames nc pre with
  | none => none
  | some preMatches =>
    (queryLoop nc post preMatches).map sortByStrength

/-- Digit-run parser underpinning `strconv.Atoi`: a non-empty run of ASCII
digits, base 10. -/
def atoiDigits (ds : List Char) : Option Nat :=
  if ds ≠ [] ∧ ds.all Char.isDigit then
    some (ds.foldl (fun acc c => 10 * acc + (c.toNat - 48)) 0)
  else none

/-- Character-list body of `Atoi`: optional single leading `+`/`-` sign
followed by a non-empty digit run, rejected when the value falls outside
Go's 64-bit `int` range (`strconv.Atoi` reports `ErrRange` then, and any
non-nil error is fatal at main.go line 326). -/
def atoiChars : List Char → Option Int
  | [] => none
  | c :: t =>
    if c = '-' then
      (atoiDigits t).bind
        (fun n => if n ≤ 9223372036854775808 then some (-(n : Int)) else none)
    else if c = '+' then
      (atoiDigits t).bind
        (fun n => if n ≤ 9223372036854775807 then some ((n : Int)) else none)
    else
      (atoiDigits (c :: t)).bind
        (fun n => if n ≤ 9223372036854775807 then some ((n : Int)) else none)

/-- `strconv.Atoi` (main.go line 324) on a 64-bit platform: base-10 parse
of an optionally signed digit run into the `int64` range; empty input, a
stray character, or an out-of-range value is an error. -/
def Atoi (s : String) : Option Int :=
  atoiChars s.data

theorem atoiChars_range (ds : List Char) (s : Int) (h : atoiChars ds = some s) :
    -9223372036854775808 ≤ s ∧ s ≤ 9223372036854775807 := by
  rcases ds with _ | ⟨c, t⟩
  · simp [atoiChars] at h
  · simp only [atoiChars] at h
    by_cases hminus : c = '-'
    · rw [if_pos hminus] at h
      rcases hd : atoiDigits t with _ | n
      · rw [hd] at h
        cases h
      · rw [hd] at h
        simp only [Option.bind] at h
        by_cases hr : n ≤ 9223372036854775808
        · rw [if_pos hr] at h
          cases h
          omega
        · rw [if_neg hr] at h
          cases h
    · rw [if_neg hminus] at h
      by_cases hplus : c = '+'
      · rw [if_pos hplus] at h
        rcases hd : atoiDigits t with _ | n
        · rw [hd] at h
          cases h
        · rw [hd] at h
          simp only [Option.bind] at h
          by_cases hr : n ≤ 9223372036854775807
          · rw [if_pos hr] at h
            cases h
            omega
          · rw [if_neg hr] at h
            cases h
      · rw [if_neg hplus] at h
        rcases hd : atoiDigits (c :: t) with _ | n
        · rw [hd] at h
          cases h
        · rw [hd] at h
          simp only [Option.bind] at h
          by_cases hr : n ≤ 9223372036854775807
          · rw [if_pos hr] at h
            cases h
            omega
          · rw [if_neg hr] at h
            cases h

/-- Every successfully parsed value lies in Go's `int64` range. -/
theorem atoi_range (f : String) (s : Int) (h : Atoi f = some s) :
    -9223372036854775808 ≤ s ∧ s ≤ 9223372036854775807 :=
  atoiChars_range f.data s h

/-- One record surfaced by the CSV reader inside `ReadConnectionsCSV`'s loop:
either a successfully read record (Go's csv reader always yields at least
one field, kept as `first`) or a read-time error. -/
inductive CSVRow where
  | ok (first : String) (fields : List String)
  | err
deriving DecidableEq, Repr

/-- The ways the connectome load can abort: the fatal
inconsistent-column-count `log.Fatalf` (main.go line 318), the fatal
parse-failure `log.Fatalln` (line 326), and the index-out-of-range panic of
`names[bodyNum]` (line 321) when the file holds more counted rows than
names. -/
inductive LoadErr where
  | shape
  | parse
  | idx
deriving DecidableEq, Repr

/-- Inner field loop of `ReadConnectionsCSV` (main.go lines 322-332) over
the row's fields zipped with the name table: parse each field, fatal on
parse error, and add a connection for each strictly positive value. -/
def addRow (preName : String) : NamedConnectome → List (String × String) →
    Except LoadErr NamedConnectome
  | connects, [] => Except.ok connects
  | connects, (postName, field) :: rest =>
    match Atoi field with
    | none => Except.error LoadErr.parse
    | some strength =>
      addRow preName
        (if 0 < strength then AddConnection connects preName postName strength else connects)
        rest

/-- One iteration of `ReadConnectionsCSV`'s loop (main.go lines 309-335) on
state `(bodyNum, connects)`: a read error is logged and skipped but still
reaches the `bodyNum++` at the bottom of the loop; a blank first field
`continue`s (no `bodyNum++`); a column-count mismatch is fatal; otherwise
the row is parsed against `names[bodyNum]` and `bodyNum` advances. -/
def stepRow (names : List String) (st : Nat × NamedConnectome) (row : CSVRow) :
    Except LoadErr (Nat × NamedConnectome) :=
  match row with
  | CSVRow.err => Except.ok (st.1 + 1, st.2)
  | CSVRow.ok first fields =>
    if first = "" then
      Except.ok st
    else if (first :: fields).length ≠ names.length then
      Except.error LoadErr.shape
    else
      match names.get? st.1 with
      | none => Except.error LoadErr.idx
      | some preName =>
        (addRow preName st.2 (names.zip (first :: fields))).map (fun c => (st.1 + 1, c))

/-- `ReadConnectionsCSV` (main.go lines 296-337) over an already-tokenized
record stream: fold the per-record step over the rows starting from
`bodyNum = 0` and an empty connectome. -/
def ReadConnectionsCSV (names : List String) (rows : List CSVRow) :
    Except LoadErr NamedConnectome :=
  (List.foldlM (stepRow names) (0, ([] : NamedConnectome)) rows).map Prod.snd

/-! ### Association-list lemmas -/

@[simp]
theorem mapLookup_mapInsert {α : Type} (m : List (String × α)) (k k' : String) (v : α) :
    mapLookup (mapInsert m k v) k' = if k = k' then some v else mapLookup m k' := by
  induction m with
  | nil => simp [mapLookup, mapInsert]
  | cons hd tl ih =>
    obtain ⟨k₀, v₀⟩ := hd
    by_cases h0 : k₀ = k
    · subst h0
      by_cases h1 : k₀ = k' <;> simp [mapLookup, mapInsert, h1]
    · by_cases h1 : k₀ = k'
      · have hk : ¬k = k' := fun h => h0 (h.trans h1.symm).symm
        have hk2 : ¬k' = k := fun h => hk h.symm
        subst h1
        simp [mapLookup, mapInsert, h0, hk, hk2]
      · simp [mapLookup, mapInsert, h0, h1, ih]

theorem mapLookup_isSome_iff_mem {α : Type} (m : List (String × α)) (k : String) :
    (mapLookup m k).isSome = true ↔ k ∈ m.map Prod.fst := by
  induction m with
  | nil => simp [mapLookup]
  | cons hd tl ih =>
    obtain ⟨k₀, v₀⟩ := hd
    by_cases h0 : k₀ = k <;> simp [mapLookup, h0, ih]
    exact fun h => (h0 h.symm).elim

/-- The within-range case: `wrapInt64` is the identity on `int64` values. -/
theorem wrapInt64_eq_self {n : Int} (h1 : -9223372036854775808 ≤ n)
    (h2 : n ≤ 9223372036854775807) : wrapInt64 n = n := by
  unfold wrapInt64
  omega

/-- Wrapping an already-wrapped left summand changes nothing: `int64`
addition is associative modulo 2^64. -/
theorem wrapInt64_add_left (x y : Int) :
    wrapInt64 (wrapInt64 x + y) = wrapInt64 (x + y) := by
  unfold wrapInt64
  omega

/-- Master lemma for `AddConnection`: pointwise effect on the stored
strengths.  The updated pair accumulates with `int64` wrap-around (missing
entries count as 0), and every other pair is untouched. -/
theorem storedStrength_addConnection (nc : NamedConnectome) (pre post : String)
    (s : Int) (p q : String) :
    storedStrength (AddConnection nc pre post s) p q =
      if p = pre ∧ q = post then some (wrapInt64 ((storedStrength nc pre post).getD 0 + s))
      else storedStrength nc p q := by
  rcases hpre : mapLookup nc pre with _ | connections
  · by_cases hp : p = pre
    · subst hp
      by_cases hq : q = post
      · subst hq
        simp [AddConnection, storedStrength, hpre, mapLookup]
      · have hq' : ¬post = q := fun h => hq h.symm
        simp [AddConnection, storedStrength, hpre, mapLookup, hq, hq']
    · have hp' : ¬pre = p := fun h => hp h.symm
      simp [AddConnection, storedStrength, hpre, mapLookup, hp, hp']
  · rcases hpost : mapLookup connections post with _ | old
    · by_cases hp : p = pre
      · subst hp
        by_cases hq : q = post
        · subst hq
          simp [AddConnection, storedStrength, hpre, hpost]
        · have hq' : ¬post = q := fun h => hq h.symm
          simp [AddConnection, storedStrength, hpre, hpost, hq, hq']
      · have hp' : ¬pre = p := fun h => hp h.symm
        simp [AddConnection, storedStrength, hpre, hpost, hp, hp']
    · by_cases hp : p = pre
      · subst hp
        by_cases hq : q = post
        · subst hq
          simp [AddConnection, storedStrength, hpre, hpost]
        · have hq' : ¬post = q := fun h => hq h.symm
          simp [AddConnection, storedStrength, hpre, hpost, hq, hq']
      · have hp' : ¬pre = p := fun h => hp h.symm
        simp [AddConnection, storedStrength, hpre, hpost, hp, hp']

/-! ### Claim C6: `ConnectionStrength` lookup semantics -/

/-- C6.  `ConnectionStrength` is a pure function of the connectome (so it
has no side effects), and it is fully characterized by the stored entry:
`found = false` both when no `(pre, post)` entry exists and when the stored
entry is exactly 0 (strength 0 is returned then), and `found = true`
exactly for a nonzero stored entry, whose value is returned. -/
theorem connectionStrength_spec (nc : NamedConnectome) (pre post : String) :
    ConnectionStrength nc pre post =
      match storedStrength nc pre post with
      | none => (0, false)
      | some s => if s = 0 then (0, false) else (s, true) := by
  unfold ConnectionStrength storedStrength
  rcases hpre : mapLookup nc pre with _ | m
  · simp
  · rcases hpost : mapLookup m post with _ | s
    · simp [hpost]
    · by_cases hs : s = 0 <;> simp [hpost, hs]

/-! ### Claim C7: `AddConnection` is additive -/

/-- C7.  `AddConnection` accumulates instead of overwriting: adding `a`
and then `b` to the same `(pre, post)` pair yields, at every pair `(p, q)`
(the updated one and all others alike), exactly the stored strengths of
adding `a + b` once.  The law survives `int64` wrap-around because wrapped
addition is addition modulo 2^64. -/
theorem addConnection_additive (nc : NamedConnectome) (pre post : String)
    (a b : Int) (p q : String) :
    storedStrength (AddConnection (AddConnection nc pre post a) pre post b) p q =
      storedStrength (AddConnection nc pre post (a + b)) p q := by
  by_cases h : p = pre ∧ q = post
  · simp [storedStrength_addConnection, h, wrapInt64_add_left, add_assoc]
  · simp [storedStrength_addConnection, h]

/-! ### Claim C2: stored strengths versus `int64` overflow -/

/-- Invariant: every stored strength of the connectome is strictly
positive. -/
def PosConnectome (nc : NamedConnectome) : Prop :=
  ∀ p q s, storedStrength nc p q = some s → 0 < s

theorem posConnectome_nil : PosConnectome [] := by
  intro p q s h
  simp [storedStrength, mapLookup] at h

theorem mem_keys_mapInsert {α : Type} (m : List (String × α)) (k k' : String) (v : α) :
    k' ∈ (mapInsert m k v).map Prod.fst ↔ k' = k ∨ k' ∈ m.map Prod.fst := by
  induction m with
  | nil => simp [mapInsert]
  | cons hd tl ih =>
    obtain ⟨k₀, v₀⟩ := hd
    by_cases h0 : k₀ = k
    · subst h0
      simp [mapInsert]
    · simp [mapInsert, h0, ih]
      tauto

theorem keys_addConnection (nc : NamedConnectome) (pre post : String) (s : Int)
    (x : String) :
    x ∈ connectomeNames (AddConnection nc pre post s) ↔
      x = pre ∨ x ∈ connectomeNames nc := by
  unfold AddConnection connectomeNames
  rcases hpre : mapLookup nc pre with _ | connections
  · rw [mem_keys_mapInsert]
  · rcases hpost : mapLookup connections post with _ | old
    · simp only [hpost, mem_keys_mapInsert]
    · simp only [hpost, mem_keys_mapInsert]

theorem keys_addRow (preName : String) :
    ∀ (pairs : List (String × String)) (c c' : NamedConnectome),
      addRow preName c pairs = Except.ok c' →
      ∀ x, x ∈ connectomeNames c' → x = preName ∨ x ∈ connectomeNames c := by
  intro pairs
  induction pairs with
  | nil =>
    intro c c' h x hx
    simp [addRow] at h
    right
    rw [h]
    exact hx
  | cons hd tl ih =>
    intro c c' h x hx
    obtain ⟨postName, field⟩ := hd
    rcases hatoi : Atoi field with _ | strength
    · simp [addRow, hatoi] at h
    · simp only [addRow, hatoi] at h
      by_cases hpos : 0 < strength
      · rw [if_pos hpos] at h
        rcases ih _ c' h x hx with h1 | h1
        · exact Or.inl h1
        · exact (keys_addConnection c preName postName strength x).mp h1
      · rw [if_neg hpos] at h
        exact ih _ c' h x hx

/-- Within one row: starting from a connectome where the row's presynaptic
name stores nothing yet, and with pairwise distinct postsynaptic names,
every add hits a fresh `(pre, post)` pair, so no wrap-around accumulation
occurs and positivity is preserved. -/
theorem addRow_pos (preName : String) :
    ∀ (pairs : List (String × String)) (c c' : NamedConnectome),
      PosConnectome c →
      (pairs.map Prod.fst).Nodup →
      (∀ pr ∈ pairs, storedStrength c preName pr.1 = none) →
      addRow preName c pairs = Except.ok c' →
      PosConnectome c' := by
  intro pairs
  induction pairs with
  | nil =>
    intro c c' hc _ _ h
    simp [addRow] at h
    rw [← h]
    exact hc
  | cons hd tl ih =>
    intro c c' hc hnd hfresh h
    obtain ⟨postName, field⟩ := hd
    simp only [List.map_cons] at hnd
    have hndtl : (tl.map Prod.fst).Nodup := hnd.of_cons
    have hhead : postName ∉ tl.map Prod.fst := (List.nodup_cons.mp hnd).1
    rcases hatoi : Atoi field with _ | strength
    · simp [addRow, hatoi] at h
    · simp only [addRow, hatoi] at h
      by_cases hpos : 0 < strength
      · rw [if_pos hpos] at h
        have hrange := atoi_range field strength hatoi
        have hfc : storedStrength c preName postName = none :=
          hfresh (postName, field) (by simp)
        have hc2 : PosConnectome (AddConnection c preName postName strength) := by
          intro p q t ht
          rw [storedStrength_addConnection] at ht
          by_cases hpq : p = preName ∧ q = postName
          · rw [if_pos hpq, hfc] at ht
            simp only [Option.getD_none, zero_add, Option.some.injEq] at ht
            rw [wrapInt64_eq_self (by omega) (by omega)] at ht
            omega
          · rw [if_neg hpq] at ht
            exact hc p q t ht
        have hfresh2 : ∀ pr ∈ tl,
            storedStrength (AddConnection c preName postName strength) preName pr.1
              = none := by
          intro pr hpr
          rw [storedStrength_addConnection]
          have hne : pr.1 ≠ postName := by
            intro hcontra
            exact hhead (hcontra ▸ List.mem_map_of_mem Prod.fst hpr)
          rw [if_neg (fun hand => hne hand.2)]
          exact hfresh pr (by simp [hpr])
        exact ih _ c' hc2 hndtl hfresh2 h
      · rw [if_neg hpos] at h
        exact ih _ c' hc hndtl (fun pr hpr => hfresh pr (by simp [hpr])) h

/-- Fold invariant for a duplicate-free name table: strengths are positive
and every presynaptic key was taken from a name-table position strictly
below the current row counter (so the next counted row's name is fresh). -/
def LoadInv (names : List String) (st : Nat × NamedConnectome) : Prop :=
  PosConnectome st.2 ∧
    ∀ p ∈ connectomeNames st.2, ∃ i, i < st.1 ∧ names.get? i = some p

theorem loadInv_stepRow {names : List String} (hnd : names.Nodup)
    {st st' : Nat × NamedConnectome} {row : CSVRow}
    (hinv : LoadInv names st) (h : stepRow names st row = Except.ok st') :
    LoadInv names st' := by
  obtain ⟨hpos, hkeys⟩ := hinv
  rcases row with ⟨first, fields⟩ | _
  · rw [stepRow] at h
    by_cases hb : first = ""
    · rw [if_pos hb] at h
      cases h
      exact ⟨hpos, hkeys⟩
    · rw [if_neg hb] at h
      by_cases hlen : (first :: fields).length ≠ names.length
      · rw [if_pos hlen] at h
        cases h
      · rw [if_neg hlen] at h
        rcases hget : names.get? st.1 with _ | preName
        · rw [hget] at h
          cases h
        · rw [hget] at h
          dsimp only at h
          rcases hadd : addRow preName st.2 (names.zip (first :: fields)) with e | c'
          · rw [hadd] at h
            simp [Except.map] at h
          · rw [hadd] at h
            simp only [Except.map, Except.ok.injEq] at h
            have hkey_pre : mapLookup st.2 preName = none := by
              rcases hl : mapLookup st.2 preName with _ | m
              · rfl
              · exfalso
                have hsome : (mapLookup st.2 preName).isSome = true := by
                  rw [hl]
                  rfl
                have hmem : preName ∈ connectomeNames st.2 := by
                  unfold connectomeNames
                  exact (mapLookup_isSome_iff_mem st.2 preName).mp hsome
                obtain ⟨i, hi, hgi⟩ := hkeys preName hmem
                have hibound : i < names.length := by
                  by_contra hge
                  rw [List.get?_eq_none.mpr (by omega)] at hgi
                  cases hgi
                have heq : i = st.1 := by
                  apply List.getElem?_inj hibound hnd
                  rw [← List.get?_eq_getElem?, ← List.get?_eq_getElem?, hgi, hget]
                omega
            have hfresh : ∀ pr ∈ names.zip (first :: fields),
                storedStrength st.2 preName pr.1 = none := by
              intro pr _
              unfold storedStrength
              rw [hkey_pre]
            have hleneq : (first :: fields).length = names.length := not_ne_iff.mp hlen
            have hznd : ((names.zip (first :: fields)).map Prod.fst).Nodup := by
              rw [List.map_fst_zip names (first :: fields) (by omega)]
              exact hnd
            have hpos' := addRow_pos preName (names.zip (first :: fields)) st.2 c'
              hpos hznd hfresh hadd
            have hkeys' : ∀ p ∈ connectomeNames c',
                ∃ i, i < st.1 + 1 ∧ names.get? i = some p := by
              intro p hp
              rcases keys_addRow preName (names.zip (first :: fields)) st.2 c'
                  hadd p hp with h1 | h1
              · refine ⟨st.1, by omega, ?_⟩
                rw [h1]
                exact hget
              · obtain ⟨i, hi, hgi⟩ := hkeys p h1
                exact ⟨i, by omega, hgi⟩
            rw [← h]
            exact ⟨hpos', hkeys'⟩
  · rw [stepRow] at h
    cases h
    refine ⟨hpos, ?_⟩
    intro p hp
    obtain ⟨i, hi, hgi⟩ := hkeys p hp
    exact ⟨i, by omega, hgi⟩

theorem loadInv_foldl {names : List String} (hnd : names.Nodup) :
    ∀ (rows : List CSVRow) (st st' : Nat × NamedConnectome),
      LoadInv names st →
      List.foldlM (stepRow names) st rows = Except.ok st' → LoadInv names st' := by
  intro rows
  induction rows with
  | nil =>
    intro st st' hc h
    simp only [List.foldlM_nil] at h
    have hst : st = st' := by
      cases h
      rfl
    exact hst ▸ hc
  | cons r rest ih =>
    intro st st' hc h
    rw [List.foldlM_cons] at h
    rcases hstep : stepRow names st r with e | st1
    · rw [hstep] at h
      cases h
    · rw [hstep] at h
      exact ih st1 st' (loadInv_stepRow hnd hc hstep) h

/-- C2 (amended).  For a name table without duplicate names, every
connectome accepted by the loader stores only strictly positive strengths:
each `(pre, post)` pair is then written at most once, with a single parsed
field value that the `> 0` guard admitted, so no wrap-around accumulation
can occur.  (With duplicate names the unrestricted claim is refuted by the
`int64` overflow counterexample.) -/
theorem readConnectionsCSV_strengths_pos (names : List String)
    (hnd : names.Nodup) (rows : List CSVRow) (nc : NamedConnectome)
    (h : ReadConnectionsCSV names rows = Except.ok nc)
    (p q : String) (s : Int) (hs : storedStrength nc p q = some s) : 0 < s := by
  unfold ReadConnectionsCSV at h
  rcases hf : List.foldlM (stepRow names) (0, ([] : NamedConnectome)) rows with e | st
  · rw [hf] at h
    cases h
  · rw [hf] at h
    cases h
    have hinv0 : LoadInv names (0, ([] : NamedConnectome)) := by
      refine ⟨posConnectome_nil, ?_⟩
      intro p hp
      simp [connectomeNames] at hp
    exact (loadInv_foldl hnd rows _ st hinv0 hf).1 p q s hs

/-! ### Concrete fixtures (cell names, patterns, CSV fields, a small
connectome: names A, B with connections A→B:5 and B→A:2) -/

def nmA : String := "A"

def nmB : String := "B"

def nmC : String := "C"

def starPat : String := "*"

def emptyPat : String := ""

def fld0 : String := "0"

def fld2 : String := "2"

def fld5 : String := "5"

def ncExample : NamedConnectome := [(nmA, [(nmB, 5)]), (nmB, [(nmA, 2)])]

def rowsExample : List CSVRow := [CSVRow.ok fld0 [fld5], CSVRow.ok fld2 [fld0]]

/-- Go's largest `int64`, as a CSV field. -/
def maxIntStr : String := "9223372036854775807"

/-- C2 counterexample.  With the duplicate name table `[A, A]` (the name
loader never deduplicates, and the spec tolerates duplicates), the single
row `9223372036854775807,9223372036854775807` is accepted by the loader:
both fields parse to `int64` max and pass the `> 0` guard, and the second
`+=` onto the same `(A, A)` pair wraps `max + max` to `-2`, so the
accepted connectome stores a negative strength — refuting the claim that
no zero or negative entry is ever materialized. -/
theorem strengths_pos_overflow_counterexample :
    ReadConnectionsCSV [nmA, nmA] [CSVRow.ok maxIntStr [maxIntStr]]
      = Except.ok [(nmA, [(nmA, -2)])]
    ∧ storedStrength [(nmA, [(nmA, -2)])] nmA nmA = some (-2)
    ∧ ¬(0 : Int) < -2 := by
  exact ⟨by decide, by decide, by decide⟩

/-- C2 witness: the concrete duplicate-free load succeeds, stores strength
5 for (A, B), and that strength is strictly positive. -/
theorem readConnectionsCSV_strengths_pos_witness :
    ([nmA, nmB] : List String).Nodup
    ∧ ReadConnectionsCSV [nmA, nmB] rowsExample = Except.ok ncExample
    ∧ storedStrength ncExample nmA nmB = some 5
    ∧ (0 : Int) < 5 :=
  ⟨by decide, by decide, by decide,
    readConnectionsCSV_strengths_pos [nmA, nmB] (by decide) rowsExample ncExample
      (by decide) nmA nmB 5 (by decide)⟩

/-! ### Claims C3 and C4: name matching -/

/-- Evaluation of `MatchingNames` on a single non-empty pattern. -/
theorem matchingNames_single (nc : NamedConnectome) (p : String) (hne : p ≠ "") :
    MatchingNames nc [p] = some
      (if lastCharIs p starChar then
        (connectomeNames nc).filter (fun name => hasPrefix name (dropLastChar p))
      else if (mapLookup nc p).isSome then [p] else []) := by
  simp [MatchingNames, hne]

/-- C3.  A non-empty pattern ending in `*` matches exactly the known names
(presynaptic keys of the connectome) of which the pattern minus its
trailing `*` is a prefix; the pattern `*` alone (empty prefix) matches
every known name. -/
theorem matchingNames_star_prefix (nc : NamedConnectome) (p x : String)
    (l : List String) (hne : p ≠ "") (hstar : lastCharIs p starChar = true)
    (hl : MatchingNames nc [p] = some l) :
    (x ∈ l ↔ x ∈ connectomeNames nc ∧ (dropLastChar p).data <+: x.data)
    ∧ (p = starPat → (x ∈ l ↔ x ∈ connectomeNames nc)) := by
  have hfil : l = (connectomeNames nc).filter
      (fun name => hasPrefix name (dropLastChar p)) := by
    rw [matchingNames_single nc p hne, hstar] at hl
    simp at hl
    exact hl.symm
  constructor
  · rw [hfil]
    simp [List.mem_filter, hasPrefix]
  · intro hp
    subst hp
    have hd : (dropLastChar starPat).data = [] := by decide
    rw [hfil]
    simp [List.mem_filter, hasPrefix, hd]

/-- C4.  A non-empty pattern not ending in `*` is matched exactly: it is
kept (as the sole match for that pattern) iff it is verbatim equal to a
known name, and the known name set is precisely the presynaptic key set of
the connectome — a name occurring only postsynaptically is not a key, so
it can never be matched (both query sides resolve patterns through this
same function against the same connectome, main.go lines 240-241). -/
theorem matchingNames_exact (nc : NamedConnectome) (p : String)
    (hne : p ≠ "") (hstar : lastCharIs p starChar = false) :
    MatchingNames nc [p] = some (if (mapLookup nc p).isSome then [p] else [])
    ∧ ((mapLookup nc p).isSome = true ↔ p ∈ connectomeNames nc) := by
  constructor
  · rw [matchingNames_single nc p hne, hstar]
    simp
  · unfold connectomeNames
    exact mapLookup_isSome_iff_mem nc p

/-- C3 witness at the concrete connectome: `*` prefix-matches both keys. -/
theorem matchingNames_star_prefix_witness :
    (nmA ∈ [nmA, nmB] ↔ nmA ∈ connectomeNames ncExample ∧ (dropLastChar starPat).data <+: nmA.data)
    ∧ (starPat = starPat → (nmA ∈ [nmA, nmB] ↔ nmA ∈ connectomeNames ncExample)) :=
  matchingNames_star_prefix ncExample starPat nmA [nmA, nmB] (by decide) (by decide)
    (by decide)

/-- C4 witness at the concrete connectome: the exact pattern `A` matches
itself and is a key. -/
theorem matchingNames_exact_witness :
    (MatchingNames ncExample [nmA] = some (if (mapLookup ncExample nmA).isSome then [nmA] else []))
    ∧ ((mapLookup ncExample nmA).isSome = true ↔ nmA ∈ connectomeNames ncExample) :=
  matchingNames_exact ncExample nmA (by decide) (by decide)

/-! ### Claim C5: query results sorted by descending strength -/

theorem mem_insertDesc (c x : Connection) (l : List Connection) :
    x ∈ insertDesc c l ↔ x = c ∨ x ∈ l := by
  induction l with
  | nil => simp [insertDesc]
  | cons d ds ih =>
    by_cases h : d.strength ≤ c.strength
    · simp [insertDesc, h]
    · simp [insertDesc, h, ih]
      tauto

theorem pairwise_insertDesc (c : Connection) (l : List Connection)
    (h : l.Pairwise (fun a b => b.strength ≤ a.strength)) :
    (insertDesc c l).Pairwise (fun a b => b.strength ≤ a.strength) := by
  induction l with
  | nil => simp [insertDesc]
  | cons d ds ih =>
    rcases List.pairwise_cons.mp h with ⟨hd, hds⟩
    by_cases hcd : d.strength ≤ c.strength
    · rw [insertDesc, if_pos hcd]
      refine List.pairwise_cons.mpr ⟨?_, h⟩
      intro b hb
      rcases List.mem_cons.mp hb with rfl | hb
      · exact hcd
      · exact le_trans (hd b hb) hcd
    · rw [insertDesc, if_neg hcd]
      refine List.pairwise_cons.mpr ⟨?_, ih hds⟩
      intro b hb
      rcases (mem_insertDesc c b ds).mp hb with rfl | hb
      · omega
      · exact hd b hb

theorem pairwise_sortByStrength (l : List Connection) :
    (sortByStrength l).Pairwise (fun a b => b.strength ≤ a.strength) := by
  induction l with
  | nil => simp [sortByStrength]
  | cons c cs ih =>
    simp only [sortByStrength, List.foldr_cons]
    exact pairwise_insertDesc c _ ih

/-- C5.  Whenever the query operation returns a connection list, that list
is sorted by strength in descending order: every earlier entry's strength
is ≥ every later entry's strength. -/
theorem queryConnections_sorted_desc (nc : NamedConnectome) (s t : String)
    (l : List Connection) (h : queryConnections nc s t = some l) :
    l.Pairwise (fun a b => b.strength ≤ a.strength) := by
  simp only [queryConnections] at h
  rcases hm : MatchingNames nc ((splitComma s).map trimSpace) with _ | pm
  · rw [hm] at h
    cases h
  · rw [hm] at h
    dsimp only at h
    rcases hq : queryLoop nc ((splitComma t).map trimSpace) pm with _ | l'
    · rw [hq] at h
      cases h
    · rw [hq] at h
      simp only [Option.map_some', Option.some.injEq] at h
      rw [← h]
      exact pairwise_sortByStrength l'

/-- C5 witness: the concrete query over all names yields the list sorted
5, 2. -/
theorem queryConnections_sorted_desc_witness :
    List.Pairwise (fun a b : Connection => b.strength ≤ a.strength)
      [Connection.mk nmA nmB 5, Connection.mk nmB nmA 2] :=
  queryConnections_sorted_desc ncExample starPat starPat
    [Connection.mk nmA nmB 5, Connection.mk nmB nmA 2] (by decide)

/-! ### Claim C1: totality of the query -/

/-- `MatchingNames` succeeds (no panic) as soon as every pattern is
non-empty. -/
theorem matchingNames_total (nc : NamedConnectome) (ps : List String)
    (h : ∀ p ∈ ps, p ≠ "") : (MatchingNames nc ps).isSome = true := by
  induction ps with
  | nil => simp [MatchingNames]
  | cons p rest ih =>
    have hp : p ≠ "" := h p (by simp)
    have hr := ih (fun q hq => h q (by simp [hq]))
    rcases hm : MatchingNames nc rest with _ | ms
    · rw [hm] at hr
      simp at hr
    · simp [MatchingNames, hp, hm]

theorem queryLoop_total (nc : NamedConnectome) (post : List String)
    (hpost : (MatchingNames nc post).isSome = true) (pres : List String) :
    (queryLoop nc post pres).isSome = true := by
  induction pres with
  | nil => simp [queryLoop]
  | cons preName rest ih =>
    rcases hm : MatchingNames nc post with _ | pm
    · rw [hm] at hpost
      simp at hpost
    · rcases hq : queryLoop nc post rest with _ | l
      · rw [hq] at ih
        simp at ih
      · simp [queryLoop, hm, hq]

/-- C1 counterexample.  The claim "the query never fails, even when the
raw pattern strings split/trim to empty patterns" is false: the raw source
pattern string `""` splits to the single empty pattern, on which
`MatchingNames` evaluates `pattern[len(pattern)-1:]`, a negative-index
slice that panics (modelled as `none`), so no connection list is
returned. -/
theorem queryConnections_empty_pattern_aborts :
    queryConnections ncExample emptyPat nmA = none := by decide

/-- C1 (amended).  The query operation terminates normally and returns a
(possibly empty) connection list for every connectome and all raw pattern
strings whose comma-separated items are all non-empty after trimming; the
unrestricted claim fails on empty patterns, whose last-character
inspection is an out-of-range string slice. -/
theorem queryConnections_total_of_nonempty_patterns (nc : NamedConnectome)
    (s t : String)
    (hs : ∀ p ∈ (splitComma s).map trimSpace, p ≠ "")
    (ht : ∀ p ∈ (splitComma t).map trimSpace, p ≠ "") :
    (queryConnections nc s t).isSome = true := by
  have h1 := matchingNames_total nc ((splitComma s).map trimSpace) hs
  have h2 := matchingNames_total nc ((splitComma t).map trimSpace) ht
  rcases hm : MatchingNames nc ((splitComma s).map trimSpace) with _ | pm
  · rw [hm] at h1
    simp at h1
  · have h3 := queryLoop_total nc ((splitComma t).map trimSpace) h2 pm
    rcases hq : queryLoop nc ((splitComma t).map trimSpace) pm with _ | l
    · rw [hq] at h3
      simp at h3
    · simp [queryConnections, hm, hq]

/-- C1 witness: a concrete query with non-empty patterns returns a list. -/
theorem queryConnections_total_witness :
    (queryConnections ncExample nmA starPat).isSome = true :=
  queryConnections_total_of_nonempty_patterns ncExample nmA starPat
    (by decide) (by decide)

/-! ### Claim C8: column-count mismatches are fatal -/

/-- C8 counterexample.  The blank-first-field check precedes the shape
check, so a record whose first field is blank is silently skipped even
when its field count (2) differs from the name-table length (3), and the
load completes successfully instead of aborting. -/
theorem shape_mismatch_blank_row_skipped :
    ReadConnectionsCSV [nmA, nmB, nmC] [CSVRow.ok emptyPat [fld0]] = Except.ok []
    ∧ (emptyPat :: [fld0]).length ≠ ([nmA, nmB, nmC] : List String).length := by
  exact ⟨by decide, by decide⟩

theorem foldl_shape_checked {names : List String} {first : String}
    {fields : List String} (hfb : first ≠ "") :
    ∀ (rows : List CSVRow) (st st' : Nat × NamedConnectome),
      List.foldlM (stepRow names) st rows = Except.ok st' →
      CSVRow.ok first fields ∈ rows →
      (first :: fields).length = names.length := by
  intro rows
  induction rows with
  | nil =>
    intro st st' _ hmem
    cases hmem
  | cons r rest ih =>
    intro st st' h hmem
    rw [List.foldlM_cons] at h
    rcases hstep : stepRow names st r with e | st1
    · rw [hstep] at h
      cases h
    · rw [hstep] at h
      rcases List.mem_cons.mp hmem with rfl | hmem'
      · rw [stepRow, if_neg hfb] at hstep
        by_cases hlen : (first :: fields).length ≠ names.length
        · rw [if_pos hlen] at hstep
          cases hstep
        · omega
      · exact ih st1 st' h hmem'

/-- C8 (amended).  Every record yielded without a read error whose first
field is non-blank and whose field count differs from the name-table
length makes the load abort fatally (so such a record never coexists with
a successful load); records whose first field is blank are silently
skipped before the shape check, whatever their field count. -/
theorem readConnectionsCSV_shape_checked (names : List String)
    (rows : List CSVRow) (nc : NamedConnectome)
    (h : ReadConnectionsCSV names rows = Except.ok nc)
    (first : String) (fields : List String)
    (hmem : CSVRow.ok first fields ∈ rows) (hfb : first ≠ "") :
    (first :: fields).length = names.length := by
  unfold ReadConnectionsCSV at h
  rcases hf : List.foldlM (stepRow names) (0, ([] : NamedConnectome)) rows with e | st
  · rw [hf] at h
    cases h
  · exact foldl_shape_checked hfb rows _ st hf hmem

/-- C8 witness: in the concrete successful load, the non-blank records
have exactly as many fields as there are names. -/
theorem readConnectionsCSV_shape_checked_witness :
    (fld0 :: [fld5]).length = ([nmA, nmB] : List String).length :=
  readConnectionsCSV_shape_checked [nmA, nmB] rowsExample ncExample (by decide)
    fld0 [fld5] (by decide) (by decide)

/-! ### Claim C9: blank rows consume no name-table slot -/

theorem foldl_blank_skip (names : List String) (first : String)
    (hb : first = "") (fields : List String) (ys : List CSVRow) :
    ∀ (xs : List CSVRow) (st : Nat × NamedConnectome),
      List.foldlM (stepRow names) st (xs ++ CSVRow.ok first fields :: ys)
        = List.foldlM (stepRow names) st (xs ++ ys) := by
  intro xs
  induction xs with
  | nil =>
    intro st
    simp only [List.nil_append, List.foldlM_cons]
    have hstep : stepRow names st (CSVRow.ok first fields) = Except.ok st := by
      simp [stepRow, hb]
    rw [hstep]
    rfl
  | cons x xs ih =>
    intro st
    simp only [List.cons_append, List.foldlM_cons]
    rcases hstep : stepRow names st x with e | st1
    · rfl
    · exact ih st1

/-- C9.  A record whose first field is blank is skipped without advancing
the row→name counter: deleting it from the record stream (wherever it
occurs) leaves the entire load result unchanged, so the next non-blank
record is associated with the same name-table position as if the blank
record were absent. -/
theorem blank_row_consumes_no_slot (names : List String) (first : String)
    (hb : first = "") (fields : List String) (xs ys : List CSVRow) :
    ReadConnectionsCSV names (xs ++ CSVRow.ok first fields :: ys)
      = ReadConnectionsCSV names (xs ++ ys) := by
  unfold ReadConnectionsCSV
  rw [foldl_blank_skip names first hb fields ys xs]

/-- C9 witness: inserting a blank record in front of the concrete record
stream leaves the loaded connectome unchanged. -/
theorem blank_row_consumes_no_slot_witness :
    ReadConnectionsCSV [nmA, nmB] ([] ++ CSVRow.ok emptyPat [fld0] :: rowsExample)
      = ReadConnectionsCSV [nmA, nmB] ([] ++ rowsExample) :=
  blank_row_consumes_no_slot [nmA, nmB] emptyPat (by decide) [fld0] [] rowsExample

/-! ### Claim C10: errored rows do consume a name-table slot -/

/-- C10.  A record surfacing a read-time error contributes no connections
and does not abort, but — unlike a blank record — it still advances the
row→name counter: stepping it maps state `(n, c)` to `(n + 1, c)`, so the
records after it are processed from a counter one greater than they would
be if the errored record were absent (second conjunct, versus folding `ys`
directly from the state reached after `xs`). -/
theorem err_row_advances_counter (names : List String) (xs ys : List CSVRow)
    (st : Nat × NamedConnectome) :
    stepRow names st CSVRow.err = Except.ok (st.1 + 1, st.2)
    ∧ List.foldlM (stepRow names) st (xs ++ CSVRow.err :: ys)
        = (List.foldlM (stepRow names) st xs) >>=
            (fun st1 => List.foldlM (stepRow names) (st1.1 + 1, st1.2) ys) := by
  constructor
  · rfl
  · induction xs generalizing st with
    | nil => rfl
    | cons x xs ih =>
      simp only [List.cons_append, List.foldlM_cons]
      rcases hstep : stepRow names st x with e | st1
      · rfl
      · exact ih st1

end MedullaConn
